import Mathlib

/-!
Verification development for the MCTS engine in `src/mcts.py`.

The engine is a single Python class `MCTS` over an abstract game-state
class `Node`.  The embedding below is shallow:

* The abstract `Node` class becomes a structure of its abstract methods
  over an opaque state type `σ` (`find_children`, `find_random_child`,
  `is_terminal`, `reward`).  Rewards are modelled as rationals.
* The engine state (`self.Q`, `self.N`, `self.children`,
  `self.exploration_weight`) becomes the structure `MCTS σ`.  The two
  `defaultdict(int)` maps `Q` and `N` are modelled by their read
  functions (total functions with default value 0): the code observes
  them only through defaulting reads, so the key set of those two maps
  is not observable.  `self.children` is a plain `dict` whose key
  presence the code branches on (`node in self.children`), so it is
  modelled as an association list.
* A second, representation-level structure `MCTSRep` keeps all three
  maps as association lists, including the key-inserting read of a
  `defaultdict`; it is used for the frame property of `choose`, which
  is precisely about those representation-level reads.
* The unbounded loops in `select` and `simulate` take an explicit fuel
  argument and return `none` when the fuel runs out.
* The floating-point library functions `math.log` and `math.sqrt` used
  by `uct_select` are modelled as an abstract pair of functions on the
  rationals (`MathOps`); no property below depends on their values.
* `random` behaviour is already abstract in the source: `find_random_child`
  is an abstract method, and the arbitrary choices `set.pop()` and the
  iteration order of Python sets are modelled by list order.
-/

/-- Association-list lookup, modelling Python `dict` lookup (`m[k]` /
`k in m`).  Returns `none` when the key is absent. -/
def alookup {σ α : Type} [DecidableEq σ] : List (σ × α) → σ → Option α
  | [], _ => none
  | (k, v) :: rest, key => if key = k then some v else alookup rest key

/-- Python `dict` assignment `m[k] = v`: replace the binding if the key is
present, otherwise append a new binding. -/
def aset {σ α : Type} [DecidableEq σ] : List (σ × α) → σ → α → List (σ × α)
  | [], key, v => [(key, v)]
  | (k, w) :: rest, key, v =>
      if key = k then (key, v) :: rest else (k, w) :: aset rest key v

/-- The value a `defaultdict` read observes: the stored value, or the
default when the key is absent. -/
def lookupD {σ α : Type} [DecidableEq σ] (m : List (σ × α)) (d : α) (key : σ) : α :=
  (alookup m key).getD d

/-- The full effect of a `defaultdict.__getitem__`: the observed value
together with the possibly extended map (a missing key is inserted with
the default value). -/
def dget {σ α : Type} [DecidableEq σ] (m : List (σ × α)) (d : α) (key : σ) :
    α × List (σ × α) :=
  match alookup m key with
  | some v => (v, m)
  | none => (d, aset m key d)

/-- The abstract methods of the `Node` base class of `src/mcts.py`, as a
dictionary of operations over a state type `σ`.  `find_children` returns a
Python set, modelled as a list; `reward` is only meaningful on terminal
states (the source documents it as "Assumes `self` is terminal node"). -/
structure Node (σ : Type) where
  find_children : σ → List σ
  find_random_child : σ → σ
  is_terminal : σ → Bool
  reward : σ → ℚ

/-- Abstract model of the two floating-point library functions used by
`uct_select` (`math.log` and `math.sqrt`).  None of the verified
properties depend on their values, only on the arguments they receive. -/
structure MathOps where
  log : ℚ → ℚ
  sqrt : ℚ → ℚ

/-- Observable state of the `MCTS` class: total reward map `Q`, visit
count map `N` (both `defaultdict(int)`, modelled by their defaulting
read functions), the expanded-children `dict`, and the exploration
weight. -/
structure MCTS (σ : Type) where
  Q : σ → ℚ
  N : σ → ℕ
  children : List (σ × List σ)
  exploration_weight : ℚ

/-- The `MCTS.__init__` constructor: all three maps empty (so `Q` and `N`
read 0 everywhere), with the given exploration weight (the source default
is 1). -/
def MCTS.init (σ : Type) (w : ℚ) : MCTS σ :=
  { Q := fun _ => 0, N := fun _ => 0, children := [], exploration_weight := w }

namespace MCTS

variable {σ : Type} [DecidableEq σ]

/-- The inner `score` function of `MCTS.choose`: negative infinity
(modelled as the bottom element of `WithBot ℚ`) for an unvisited state,
otherwise the mean reward `Q[n] / N[n]`. -/
def score (t : MCTS σ) (n : σ) : WithBot ℚ :=
  if t.N n = 0 then ⊥ else ((t.Q n / (t.N n : ℚ) : ℚ) : WithBot ℚ)

/-- Python `max(iterable, key=f)` over a nonempty sequence, given as a
first element and the remaining elements: keeps the earliest element
whose key is strictly greater than the current best key. -/
def maxByKey {σ β : Type} [LinearOrder β] (f : σ → β) : σ → List σ → σ
  | best, [] => best
  | best, x :: xs => if f best < f x then maxByKey f x xs else maxByKey f best xs

/-- `MCTS.choose`: the decision query.  Raising `RuntimeError` on a
terminal argument and the `ValueError` that Python `max` raises on an
empty sequence are modelled with `Except.error`. -/
def choose (nd : Node σ) (t : MCTS σ) (node : σ) : Except String σ :=
  if nd.is_terminal node then Except.error "choose called a terminal node"
  else
    match alookup t.children node with
    | none => Except.ok (nd.find_random_child node)
    | some [] => Except.error "max() arg is an empty sequence"
    | some (c :: cs) => Except.ok (maxByKey (score t) c cs)

/-- The expression `self.children[node] - self.children.keys()` of
`MCTS.select`: the recorded children that are not themselves keys of the
expanded-children map. -/
def unexplored (t : MCTS σ) (kids : List σ) : List σ :=
  kids.filter fun c => (alookup t.children c).isNone

/-- `MCTS.uct_select`: among the recorded children of `node`, the one
maximizing `Q[n]/N[n] + exploration_weight * sqrt(log(N[node]) / N[n])`.
Returns `none` where Python would raise (`node` not a key, or an empty
children set); the select loop only calls it with a nonempty entry. -/
def uct_select (m : MathOps) (t : MCTS σ) (node : σ) : Option σ :=
  match alookup t.children node with
  | none => none
  | some [] => none
  | some (c :: cs) =>
      let vertex := m.log (t.N node : ℚ)
      some (maxByKey
        (fun n => t.Q n / (t.N n : ℚ) +
          t.exploration_weight * m.sqrt (vertex / (t.N n : ℚ)))
        c cs)

/-- `MCTS.select` with explicit fuel for the unbounded `while True` loop:
starting at `node`, descend through UCT-optimal children until reaching a
state that is unexpanded or has an empty recorded children set (return
the path so far) or has an unexplored recorded child (append one such
child and return).  `set.pop()` is modelled as taking the first listed
unexplored child. -/
def selectFuel (m : MathOps) : ℕ → MCTS σ → σ → Option (List σ)
  | 0, _, _ => none
  | fuel + 1, t, node =>
    match alookup t.children node with
    | none => some [node]
    | some [] => some [node]
    | some (c :: cs) =>
      match unexplored t (c :: cs) with
      | u :: _ => some [node, u]
      | [] =>
        match uct_select m t node with
        | none => none
        | some next => (selectFuel m fuel t next).map (node :: ·)

/-- `MCTS.expand`: a no-op if `node` is already a key of the
expanded-children map, otherwise store its legal successors. -/
def expand (nd : Node σ) (t : MCTS σ) (node : σ) : MCTS σ :=
  match alookup t.children node with
  | some _ => t
  | none => { t with children := aset t.children node (nd.find_children node) }

/-- The `while True` loop of `MCTS.simulate`, with explicit fuel: walk
random successors until a terminal state, negating `invert_reward` at
each step, and return the terminal reward, complemented once when the
flag is set at termination. -/
def simulateFuel (nd : Node σ) : ℕ → σ → Bool → Option ℚ
  | 0, _, _ => none
  | fuel + 1, node, invert_reward =>
    if nd.is_terminal node then
      some (if invert_reward then 1 - nd.reward node else nd.reward node)
    else simulateFuel nd fuel (nd.find_random_child node) (!invert_reward)

/-- `MCTS.simulate`: the random playout, whose `invert_reward` flag
starts `True`. -/
def simulate (nd : Node σ) (fuel : ℕ) (node : σ) : Option ℚ :=
  simulateFuel nd fuel node true

/-- One iteration of the `MCTS.backpropagate` loop body: increment the
visit count of `node` and add `reward` to its total reward. -/
def bump (t : MCTS σ) (node : σ) (reward : ℚ) : MCTS σ :=
  { t with
    N := fun s => if s = node then t.N s + 1 else t.N s,
    Q := fun s => if s = node then t.Q s + reward else t.Q s }

/-- The `for node in reversed(path)` loop of `MCTS.backpropagate`,
already applied to the reversed path: bump the first state with the
current reward, then continue with the complemented reward `1 - reward`. -/
def backpropGo : MCTS σ → List σ → ℚ → MCTS σ
  | t, [], _ => t
  | t, node :: rest, reward => backpropGo (bump t node reward) rest (1 - reward)

/-- `MCTS.backpropagate`: walk the path from the leaf (its last element)
back to the root, bumping statistics and flipping the reward between
consecutive states. -/
def backpropagate (t : MCTS σ) (path : List σ) (reward : ℚ) : MCTS σ :=
  backpropGo t path.reverse reward

/-- `MCTS.rollout`: select a path, expand its leaf (`path[-1]`), simulate
from the leaf, and backpropagate the sampled reward along the path.
`none` models fuel exhaustion (a non-terminating loop in the source) or
an unreachable Python exception. -/
def rollout (m : MathOps) (nd : Node σ) (fuel : ℕ) (t : MCTS σ) (node : σ) :
    Option (MCTS σ) :=
  match selectFuel m fuel t node with
  | none => none
  | some path =>
    match path.getLast? with
    | none => none
    | some leaf =>
      let t1 := expand nd t leaf
      match simulate nd fuel leaf with
      | none => none
      | some reward => some (backpropagate t1 path reward)

/-- `k` successive calls of `MCTS.rollout` on the same root. -/
def rolloutN (m : MathOps) (nd : Node σ) (fuel : ℕ) : ℕ → MCTS σ → σ → Option (MCTS σ)
  | 0, t, _ => some t
  | k + 1, t, root =>
    match rollout m nd fuel t root with
    | none => none
    | some t1 => rolloutN m nd fuel k t1 root

/-- The sequence of rewards that `backpropagate` assigns, indexed from
the leaf: the initial reward, then its complement, alternating. -/
def rewardSeq (r : ℚ) : ℕ → ℚ
  | 0 => r
  | i + 1 => 1 - rewardSeq r i

/-- Total reward that `backpropGo` adds to the state `s` while processing
the given (already reversed) path with the given current reward. -/
def qAdded (s : σ) : List σ → ℚ → ℚ
  | [], _ => 0
  | node :: rest, reward => (if s = node then reward else 0) + qAdded s rest (1 - reward)

/-- `k`-fold iteration of `find_random_child`, the spine of the random
playout in `simulate`. -/
def iterChild (nd : Node σ) : ℕ → σ → σ
  | 0, s => s
  | k + 1, s => iterChild nd k (nd.find_random_child s)

/-- Engine invariant: every state recorded as expanded (a key of the
expanded-children map) has visit count at least 1. -/
def ExpandedVisited (t : MCTS σ) : Prop :=
  ∀ s : σ, (alookup t.children s).isSome = true → 1 ≤ t.N s

/-- Whether an `Except` value is a success. -/
def exceptOk {ε α : Type} : Except ε α → Bool
  | Except.ok _ => true
  | Except.error _ => false

end MCTS

/-- Representation-level state of the `MCTS` class, keeping `Q` and `N`
as actual key-value stores so that the key-inserting reads of a Python
`defaultdict` are visible. -/
structure MCTSRep (σ : Type) where
  Q : List (σ × ℚ)
  N : List (σ × ℕ)
  children : List (σ × List σ)
  exploration_weight : ℚ

namespace MCTSRep

variable {σ : Type} [DecidableEq σ]

/-- Representation-level `score` inner function of `MCTS.choose`: the
read `self.N[n]` inserts a 0 entry when absent; on the unvisited branch
`self.Q` is not read, otherwise `self.Q[n]` is read (and inserted when
absent) as well. -/
def scoreRep (t : MCTSRep σ) (n : σ) : WithBot ℚ × MCTSRep σ :=
  let p := dget t.N 0 n
  if p.1 = 0 then (⊥, { t with N := p.2 })
  else
    let q := dget t.Q 0 n
    (((q.1 / (p.1 : ℚ) : ℚ) : WithBot ℚ), { t with N := p.2, Q := q.2 })

/-- Representation-level Python `max(children, key=score)`: evaluates
the score of each remaining element in order, threading the engine
state through the key-inserting reads. -/
def maxScoreRep : MCTSRep σ → σ → WithBot ℚ → List σ → σ × MCTSRep σ
  | t, best, _, [] => (best, t)
  | t, best, bestKey, x :: xs =>
    let p := scoreRep t x
    if bestKey < p.1 then maxScoreRep p.2 x p.1 xs
    else maxScoreRep p.2 best bestKey xs

/-- Representation-level `MCTS.choose`, returning the result together
with the engine state after all `defaultdict` reads performed by the
call. -/
def chooseRep (nd : Node σ) (t : MCTSRep σ) (node : σ) :
    Except String σ × MCTSRep σ :=
  if nd.is_terminal node then (Except.error "choose called a terminal node", t)
  else
    match alookup t.children node with
    | none => (Except.ok (nd.find_random_child node), t)
    | some [] => (Except.error "max() arg is an empty sequence", t)
    | some (c :: cs) =>
      let p := scoreRep t c
      let q := maxScoreRep p.2 c p.1 cs
      (Except.ok q.1, q.2)

end MCTSRep

/-! Concrete instances used by the witness theorems. -/

/-- Concrete stand-in for the math library functions; no verified property
depends on the values of `log` or `sqrt`. -/
def mOps : MathOps := { log := fun _ => 0, sqrt := fun _ => 0 }

/-- A concrete game on three states: state 0 has the two terminal
successors 1 (a win, reward 1) and 2 (a loss, reward 0). -/
def gFin : Node (Fin 3) where
  find_children := fun s => if s = 0 then [1, 2] else []
  find_random_child := fun s => if s = 0 then 1 else s
  is_terminal := fun s => if s = 0 then false else true
  reward := fun s => if s = 1 then 1 else 0

/-- A concrete chain game 0 → 1 → 2 whose only terminal state is 2. -/
def gChain : Node (Fin 3) where
  find_children := fun s => if s = 0 then [1] else if s = 1 then [2] else []
  find_random_child := fun s => if s = 0 then 1 else 2
  is_terminal := fun s => if s = 2 then true else false
  reward := fun _ => 3 / 4

/-- A concrete engine state in which state 0 is expanded with visited
children 1 and 2, of mean rewards 3/4 and 1/2. -/
def tChoose : MCTS (Fin 3) where
  Q := fun s => if s = 1 then 3 else 1
  N := fun s => if s = 1 then 4 else 2
  children := [(0, [1, 2])]
  exploration_weight := 1

/-- A concrete engine state in which every recorded child of state 0 is
itself expanded and visited, so the select loop would reach
`uct_select` at state 0. -/
def tUct : MCTS (Fin 3) where
  Q := fun _ => 0
  N := fun s => if s = 0 then 3 else 1
  children := [(0, [1, 2]), (1, []), (2, [])]
  exploration_weight := 1

/-- A concrete engine state in which only state 0 is expanded (its
children 1 and 2 are recorded but not yet expanded themselves). -/
def tExp : MCTS (Fin 3) where
  Q := fun _ => 0
  N := fun s => if s = 0 then 1 else 0
  children := [(0, [1, 2])]
  exploration_weight := 1

/-- The engine state reached by two rollouts of `gFin` from state 0 on a
fresh engine. -/
def tRoll2 : MCTS (Fin 3) :=
  (MCTS.rolloutN mOps gFin 5 2 (MCTS.init (Fin 3) 1) 0).getD (MCTS.init (Fin 3) 1)

/-- The engine state reached by one rollout of `gFin` from state 0
starting at `tExp`. -/
def tRoll8 : MCTS (Fin 3) :=
  (MCTS.rollout mOps gFin 5 tExp 0).getD tExp

/-! Helper lemmas about the dictionary model. -/

theorem alookup_aset_self {σ α : Type} [DecidableEq σ] (m : List (σ × α)) (k : σ) (v : α) :
    alookup (aset m k v) k = some v := by
  induction m with
  | nil => simp [aset, alookup]
  | cons p rest ih =>
    obtain ⟨k1, v1⟩ := p
    rw [aset]
    by_cases h : k = k1
    · rw [if_pos h, alookup, if_pos rfl]
    · rw [if_neg h, alookup, if_neg h]
      exact ih

theorem alookup_aset_ne {σ α : Type} [DecidableEq σ] (m : List (σ × α)) (k k2 : σ) (v : α)
    (h : k2 ≠ k) : alookup (aset m k v) k2 = alookup m k2 := by
  induction m with
  | nil => simp [aset, alookup, h]
  | cons p rest ih =>
    obtain ⟨k1, v1⟩ := p
    rw [aset]
    by_cases h1 : k = k1
    · subst h1
      rw [if_pos rfl, alookup, alookup, if_neg h, if_neg h]
    · rw [if_neg h1, alookup, alookup]
      by_cases h2 : k2 = k1
      · rw [if_pos h2, if_pos h2]
      · rw [if_neg h2, if_neg h2]
        exact ih

theorem lookupD_dget {σ α : Type} [DecidableEq σ] (m : List (σ × α)) (d : α) (k s : σ) :
    lookupD (dget m d k).2 d s = lookupD m d s := by
  cases h : alookup m k with
  | some v => simp only [dget, h]
  | none =>
    simp only [dget, h]
    by_cases h2 : s = k
    · subst h2
      rw [lookupD, lookupD, alookup_aset_self, h]
      rfl
    · rw [lookupD, lookupD, alookup_aset_ne _ _ _ _ h2]

namespace MCTS

variable {σ : Type} [DecidableEq σ]

theorem maxByKey_mem {σ2 β : Type} [LinearOrder β] (f : σ2 → β) (b : σ2) (xs : List σ2) :
    maxByKey f b xs ∈ b :: xs := by
  induction xs generalizing b with
  | nil => simp [maxByKey]
  | cons x xs ih =>
    rw [maxByKey]
    by_cases h : f b < f x
    · rw [if_pos h]
      exact List.mem_cons_of_mem _ (ih x)
    · rw [if_neg h]
      rcases List.mem_cons.mp (ih b) with h1 | h1
      · rw [h1]
        exact List.mem_cons_self _ _
      · exact List.mem_cons_of_mem _ (List.mem_cons_of_mem _ h1)

theorem maxByKey_le {σ2 β : Type} [LinearOrder β] (f : σ2 → β) (b : σ2) (xs : List σ2) :
    ∀ y ∈ b :: xs, f y ≤ f (maxByKey f b xs) := by
  induction xs generalizing b with
  | nil =>
    intro y hy
    rw [List.mem_singleton] at hy
    subst hy
    rw [maxByKey]
  | cons x xs ih =>
    intro y hy
    rw [maxByKey]
    rcases List.mem_cons.mp hy with rfl | hy2
    · by_cases h : f y < f x
      · rw [if_pos h]
        exact h.le.trans (ih x x (List.mem_cons_self x xs))
      · rw [if_neg h]
        exact ih y y (List.mem_cons_self y xs)
    · rcases List.mem_cons.mp hy2 with rfl | hy3
      · by_cases h : f b < f y
        · rw [if_pos h]
          exact ih y y (List.mem_cons_self y xs)
        · rw [if_neg h]
          exact (not_lt.mp h).trans (ih b b (List.mem_cons_self b xs))
      · by_cases h : f b < f x
        · rw [if_pos h]
          exact ih x y (List.mem_cons_of_mem x hy3)
        · rw [if_neg h]
          exact ih b y (List.mem_cons_of_mem b hy3)

/-- C1: on a non-terminal, already-expanded root, `choose` succeeds when
the recorded children set is nonempty, and any state it returns is one of
the recorded children with a maximal `score` (mean reward, with bottom
for unvisited children); consequently it never returns an unvisited child
while some recorded child has been visited. -/
theorem choose_spec (nd : Node σ) (t : MCTS σ) (root : σ) (kids : List σ)
    (hterm : nd.is_terminal root = false)
    (hexp : alookup t.children root = some kids) :
    (kids ≠ [] → exceptOk (choose nd t root) = true)
    ∧ ∀ c, choose nd t root = Except.ok c →
        c ∈ kids ∧ (∀ x ∈ kids, score t x ≤ score t c)
          ∧ ((∃ x ∈ kids, t.N x ≠ 0) → t.N c ≠ 0) := by
  cases kids with
  | nil =>
    refine ⟨fun h => absurd rfl h, fun c hc => ?_⟩
    rw [choose, hterm] at hc
    simp only [Bool.false_eq_true, if_false, hexp] at hc
    cases hc
  | cons c0 cs =>
    have hch : choose nd t root = Except.ok (maxByKey (score t) c0 cs) := by
      rw [choose, hterm]
      simp only [Bool.false_eq_true, if_false, hexp]
    refine ⟨fun _ => by rw [hch]; rfl, fun c hc => ?_⟩
    rw [hch] at hc
    have hc2 : maxByKey (score t) c0 cs = c := by
      injection hc
    subst hc2
    refine ⟨maxByKey_mem _ _ _, maxByKey_le _ _ _, ?_⟩
    rintro ⟨x, hx, hNx⟩ hNc
    have hle := maxByKey_le (score t) c0 cs x hx
    have hsx : score t x = ((t.Q x / (t.N x : ℚ) : ℚ) : WithBot ℚ) := by
      rw [score, if_neg hNx]
    have hsc : score t (maxByKey (score t) c0 cs) = ⊥ := by
      rw [score, if_pos hNc]
    rw [hsx, hsc] at hle
    exact WithBot.coe_ne_bot (le_bot_iff.mp hle)

/-- C6: `choose` on a terminal state fails with the defined error, for
any engine state. -/
theorem choose_terminal_error (nd : Node σ) (t : MCTS σ) (node : σ)
    (h : nd.is_terminal node = true) :
    choose nd t node = Except.error "choose called a terminal node" := by
  rw [choose, h]
  rfl

/-- C7: `choose` on a non-terminal state that was never expanded does
not fail: it returns the random successor of the state. -/
theorem choose_unexpanded (nd : Node σ) (t : MCTS σ) (node : σ)
    (h1 : nd.is_terminal node = false)
    (h2 : alookup t.children node = none) :
    choose nd t node = Except.ok (nd.find_random_child node) := by
  rw [choose, h1]
  simp only [Bool.false_eq_true, if_false, h2]

end MCTS

/-- Witness for C1 at a concrete engine state: state 0 is non-terminal
and expanded with children 1 and 2, both visited, and `choose` returns
child 1, a child of maximal mean reward with nonzero visit count. -/
theorem choose_spec_witness :
    gFin.is_terminal 0 = false
    ∧ alookup tChoose.children 0 = some [1, 2]
    ∧ MCTS.choose gFin tChoose 0 = Except.ok 1
    ∧ (1 : Fin 3) ∈ [(1 : Fin 3), 2]
    ∧ (∀ x ∈ [(1 : Fin 3), 2], MCTS.score tChoose x ≤ MCTS.score tChoose 1)
    ∧ tChoose.N 1 ≠ 0 := by
  have hs1 : MCTS.score tChoose 1 = ((3 / 4 : ℚ) : WithBot ℚ) := by
    rw [MCTS.score, show tChoose.N 1 = 4 from rfl, show tChoose.Q 1 = 3 from rfl]
    norm_num
  have hs2 : MCTS.score tChoose 2 = ((1 / 2 : ℚ) : WithBot ℚ) := by
    rw [MCTS.score, show tChoose.N 2 = 2 from rfl, show tChoose.Q 2 = 1 from rfl]
    norm_num
  have hlt : ¬ MCTS.score tChoose 1 < MCTS.score tChoose 2 := by
    rw [hs1, hs2, WithBot.coe_lt_coe]
    norm_num
  have hok : MCTS.choose gFin tChoose 0 = Except.ok 1 := by
    have ht : gFin.is_terminal 0 = false := rfl
    have hl : alookup tChoose.children 0 = some [(1 : Fin 3), 2] := rfl
    rw [MCTS.choose, ht]
    simp only [Bool.false_eq_true, if_false, hl]
    rw [MCTS.maxByKey, if_neg hlt]
    rfl
  have h := (MCTS.choose_spec gFin tChoose 0 [1, 2] rfl rfl).2 1 hok
  exact ⟨rfl, rfl, hok, h.1, h.2.1, h.2.2 ⟨1, by decide, by decide⟩⟩

/-- Witness for C6 at a concrete terminal state. -/
theorem choose_terminal_error_witness :
    gFin.is_terminal 1 = true
    ∧ MCTS.choose gFin tChoose 1 = Except.error "choose called a terminal node" :=
  ⟨rfl, MCTS.choose_terminal_error gFin tChoose 1 rfl⟩

/-- Witness for C7 on a fresh engine: state 0 is non-terminal and not a
key of the expanded-children map, and `choose` returns its random
successor. -/
theorem choose_unexpanded_witness :
    gFin.is_terminal 0 = false
    ∧ alookup (MCTS.init (Fin 3) 1).children 0 = none
    ∧ MCTS.choose gFin (MCTS.init (Fin 3) 1) 0 = Except.ok (gFin.find_random_child 0) :=
  ⟨rfl, rfl, MCTS.choose_unexpanded gFin (MCTS.init (Fin 3) 1) 0 rfl rfl⟩

namespace MCTS

variable {σ : Type} [DecidableEq σ]

theorem backpropGo_N (t : MCTS σ) (l : List σ) (r : ℚ) (s : σ) :
    (backpropGo t l r).N s = t.N s + l.count s := by
  induction l generalizing t r with
  | nil => simp [backpropGo]
  | cons n rest ih =>
    rw [backpropGo, ih, List.count_cons]
    by_cases h : s = n
    · subst h
      rw [bump]
      simp
      omega
    · rw [bump]
      simp [h, Ne.symm h]

theorem backpropGo_Q (t : MCTS σ) (l : List σ) (r : ℚ) (s : σ) :
    (backpropGo t l r).Q s = t.Q s + qAdded s l r := by
  induction l generalizing t r with
  | nil => simp [backpropGo, qAdded]
  | cons n rest ih =>
    rw [backpropGo, ih, qAdded]
    by_cases h : s = n
    · subst h
      rw [bump]
      simp
      ring
    · rw [bump]
      simp [h]

theorem backpropGo_children (t : MCTS σ) (l : List σ) (r : ℚ) :
    (backpropGo t l r).children = t.children := by
  induction l generalizing t r with
  | nil => rfl
  | cons n rest ih => rw [backpropGo, ih]; rfl

theorem backpropagate_children (t : MCTS σ) (path : List σ) (r : ℚ) :
    (backpropagate t path r).children = t.children :=
  backpropGo_children t path.reverse r

theorem rewardSeq_shift (r : ℚ) (i : ℕ) :
    rewardSeq r (i + 1) = rewardSeq (1 - r) i := by
  induction i with
  | zero => rfl
  | succ j ih =>
    rw [show rewardSeq r (j + 1 + 1) = 1 - rewardSeq r (j + 1) from rfl, ih]
    rfl

theorem qAdded_eq_sum (s : σ) (l : List σ) (r : ℚ) :
    qAdded s l r =
      ((List.range l.length).map
        (fun i => if l.get? i = some s then rewardSeq r i else 0)).sum := by
  induction l generalizing r with
  | nil => simp [qAdded]
  | cons n rest ih =>
    rw [qAdded, ih (1 - r), List.length_cons, List.range_succ_eq_map,
      List.map_cons, List.sum_cons, List.map_map]
    congr 1
    · rw [List.get?_cons_zero]
      by_cases h : s = n
      · subst h
        simp [rewardSeq]
      · simp [Ne.symm h, h]
    · congr 1
      apply List.map_congr_left
      intro i _
      simp only [Function.comp_apply, Nat.succ_eq_add_one, List.get?_cons_succ,
        rewardSeq_shift]

/-- C3: `backpropagate` walks the path from the leaf (last element) to
the root, flipping the reward to its complement between consecutive
states; every state gains one visit per occurrence on the path, and the
total reward of a state grows by the rewards assigned at its positions,
which follow the alternating sequence `rewardSeq`; the rewards assigned
at any two consecutive positions sum to 1. -/
theorem backpropagate_spec (t : MCTS σ) (path p : List σ) (n s : σ) (r : ℚ) (i : ℕ) :
    backpropagate t (p ++ [n]) r = backpropagate (bump t n r) p (1 - r)
    ∧ (backpropagate t path r).N s = t.N s + path.count s
    ∧ (backpropagate t path r).Q s = t.Q s + qAdded s path.reverse r
    ∧ qAdded s path.reverse r =
        ((List.range path.length).map
          (fun j => if path.reverse.get? j = some s then rewardSeq r j else 0)).sum
    ∧ rewardSeq r i + rewardSeq r (i + 1) = 1 := by
  refine ⟨?_, ?_, ?_, ?_, ?_⟩
  · rw [backpropagate, backpropagate, List.reverse_append, List.reverse_singleton,
      List.singleton_append, backpropGo]
  · rw [backpropagate, backpropGo_N, List.count_reverse]
  · rw [backpropagate, backpropGo_Q]
  · rw [qAdded_eq_sum, List.length_reverse]
  · rw [show rewardSeq r (i + 1) = 1 - rewardSeq r i from rfl]
    ring

end MCTS

namespace MCTS

variable {σ : Type} [DecidableEq σ]

theorem expand_N (nd : Node σ) (t : MCTS σ) (s : σ) : (expand nd t s).N = t.N := by
  cases h : alookup t.children s <;> simp [expand, h]

theorem expand_Q (nd : Node σ) (t : MCTS σ) (s : σ) : (expand nd t s).Q = t.Q := by
  cases h : alookup t.children s <;> simp [expand, h]

theorem alookup_expand_preserve (nd : Node σ) (t : MCTS σ) (s s2 : σ) (l : List σ)
    (hs : alookup t.children s = some l) :
    alookup (expand nd t s2).children s = some l := by
  cases h : alookup t.children s2 with
  | some l2 => simpa [expand, h] using hs
  | none =>
    have hne : s ≠ s2 := by
      rintro rfl
      rw [h] at hs
      cases hs
    simp only [expand, h]
    rw [alookup_aset_ne _ _ _ _ hne]
    exact hs

/-- Successful `rollout` decomposed into its four phases. -/
theorem rollout_eq (m : MathOps) (nd : Node σ) (fuel : ℕ) (t t2 : MCTS σ) (root : σ)
    (h : rollout m nd fuel t root = some t2) :
    ∃ path leaf reward,
      selectFuel m fuel t root = some path ∧ path.getLast? = some leaf
        ∧ simulate nd fuel leaf = some reward
        ∧ t2 = backpropagate (expand nd t leaf) path reward := by
  rw [rollout] at h
  cases hsel : selectFuel m fuel t root with
  | none => rw [hsel] at h; cases h
  | some path =>
    simp only [hsel] at h
    cases hlast : path.getLast? with
    | none => rw [hlast] at h; cases h
    | some leaf =>
      simp only [hlast] at h
      cases hsim : simulate nd fuel leaf with
      | none => rw [hsim] at h; cases h
      | some reward =>
        simp only [hsim] at h
        exact ⟨path, leaf, reward, rfl, hlast, hsim, (Option.some.inj h).symm⟩

theorem expand_noop (nd : Node σ) (t : MCTS σ) (s : σ) (l : List σ)
    (hs : alookup t.children s = some l) : expand nd t s = t := by
  simp only [expand, hs]

/-- C8: once stored, an entry of the expanded-children map is never
changed by any engine operation: `expand` on an expanded state is a
no-op and is idempotent, and a whole `rollout` (whose select phase only
reads the map) preserves every stored entry. -/
theorem children_immutable (m : MathOps) (nd : Node σ) (fuel : ℕ)
    (t t2 : MCTS σ) (s s2 root : σ) (l : List σ)
    (hs : alookup t.children s = some l) :
    expand nd t s = t
    ∧ alookup (expand nd t s2).children s = some l
    ∧ expand nd (expand nd t s2) s2 = expand nd t s2
    ∧ (rollout m nd fuel t root = some t2 → alookup t2.children s = some l) := by
  refine ⟨expand_noop nd t s l hs, alookup_expand_preserve nd t s s2 l hs, ?_, ?_⟩
  · cases h2 : alookup t.children s2 with
    | some l2 =>
      have he : expand nd t s2 = t := expand_noop nd t s2 l2 h2
      rw [he]
      exact he
    | none =>
      have hx : alookup (expand nd t s2).children s2 = some (nd.find_children s2) := by
        simp only [expand, h2]
        exact alookup_aset_self t.children s2 (nd.find_children s2)
      exact expand_noop nd (expand nd t s2) s2 (nd.find_children s2) hx
  · intro h
    obtain ⟨path, leaf, reward, hsel, hlast, hsim, ht2⟩ :=
      rollout_eq m nd fuel t t2 root h
    rw [ht2, backpropagate_children]
    exact alookup_expand_preserve nd t s leaf l hs

/-- C10: `rollout` on a terminal root (unexpanded, or expanded with an
empty recorded children set) is well defined: select returns the
one-element path, simulate performs zero random steps and returns the
complemented terminal reward, and backpropagation adds one visit and
that reward to the root; a previously unexpanded root gets its legal
successors stored. -/
theorem rollout_terminal_root (m : MathOps) (nd : Node σ) (fuel : ℕ)
    (t : MCTS σ) (root : σ)
    (hterm : nd.is_terminal root = true)
    (hch : alookup t.children root = none ∨ alookup t.children root = some []) :
    selectFuel m (fuel + 1) t root = some [root]
    ∧ simulate nd (fuel + 1) root = some (1 - nd.reward root)
    ∧ rollout m nd (fuel + 1) t root =
        some (backpropagate (expand nd t root) [root] (1 - nd.reward root))
    ∧ ∀ t2, rollout m nd (fuel + 1) t root = some t2 →
        t2.N root = t.N root + 1
        ∧ t2.Q root = t.Q root + (1 - nd.reward root)
        ∧ (alookup t.children root = none →
            alookup t2.children root = some (nd.find_children root)) := by
  have hsel : selectFuel m (fuel + 1) t root = some [root] := by
    rcases hch with h | h
    · rw [selectFuel]
      simp only [h]
    · rw [selectFuel]
      simp only [h]
  have hsim : simulate nd (fuel + 1) root = some (1 - nd.reward root) := by
    rw [simulate, simulateFuel, hterm]
    rfl
  have hroll : rollout m nd (fuel + 1) t root =
      some (backpropagate (expand nd t root) [root] (1 - nd.reward root)) := by
    rw [rollout]
    simp only [hsel, List.getLast?_singleton, hsim]
  refine ⟨hsel, hsim, hroll, ?_⟩
  intro t2 h2
  rw [hroll] at h2
  have ht2 : t2 = backpropagate (expand nd t root) [root] (1 - nd.reward root) :=
    (Option.some.inj h2).symm
  subst ht2
  refine ⟨?_, ?_, ?_⟩
  · rw [backpropagate, List.reverse_singleton, backpropGo, backpropGo, bump]
    simp [expand_N]
  · rw [backpropagate, List.reverse_singleton, backpropGo, backpropGo, bump]
    simp [expand_Q]
  · intro hnone
    rw [backpropagate_children]
    simp [expand, hnone, alookup_aset_self]

end MCTS

/-- Witness for C8: state 0 of `tExp` is expanded with children 1 and 2;
`expand` leaves `tExp` unchanged, and the concrete rollout `tRoll8`
still records the same children for state 0. -/
theorem children_immutable_witness :
    alookup tExp.children 0 = some [1, 2]
    ∧ MCTS.expand gFin tExp 0 = tExp
    ∧ MCTS.rollout mOps gFin 5 tExp 0 = some tRoll8
    ∧ alookup tRoll8.children 0 = some [1, 2] := by
  have h := MCTS.children_immutable mOps gFin 5 tExp tRoll8 0 0 0 [1, 2] rfl
  exact ⟨rfl, h.1, rfl, h.2.2.2 rfl⟩

/-- Witness for C10 on a fresh engine at the concrete terminal state 1. -/
theorem rollout_terminal_root_witness :
    gFin.is_terminal 1 = true
    ∧ MCTS.selectFuel mOps 1 (MCTS.init (Fin 3) 1) 1 = some [1]
    ∧ MCTS.simulate gFin 1 1 = some (1 - gFin.reward 1)
    ∧ MCTS.rollout mOps gFin 1 (MCTS.init (Fin 3) 1) 1 =
        some (MCTS.backpropagate (MCTS.expand gFin (MCTS.init (Fin 3) 1) 1) [1]
          (1 - gFin.reward 1)) := by
  have h := MCTS.rollout_terminal_root mOps gFin 0 (MCTS.init (Fin 3) 1) 1 rfl (Or.inl rfl)
  exact ⟨rfl, h.1, h.2.1, h.2.2.1⟩

namespace MCTSRep

variable {σ : Type} [DecidableEq σ]

theorem scoreRep_frame (t : MCTSRep σ) (n s : σ) :
    lookupD (scoreRep t n).2.Q 0 s = lookupD t.Q 0 s
    ∧ lookupD (scoreRep t n).2.N 0 s = lookupD t.N 0 s
    ∧ (scoreRep t n).2.children = t.children
    ∧ (scoreRep t n).2.exploration_weight = t.exploration_weight := by
  simp only [scoreRep]
  by_cases h : (dget t.N 0 n).1 = 0
  · rw [if_pos h]
    exact ⟨rfl, lookupD_dget t.N 0 n s, rfl, rfl⟩
  · rw [if_neg h]
    exact ⟨lookupD_dget t.Q 0 n s, lookupD_dget t.N 0 n s, rfl, rfl⟩

theorem maxScoreRep_frame (xs : List σ) :
    ∀ (t : MCTSRep σ) (b : σ) (k : WithBot ℚ) (s : σ),
      lookupD (maxScoreRep t b k xs).2.Q 0 s = lookupD t.Q 0 s
      ∧ lookupD (maxScoreRep t b k xs).2.N 0 s = lookupD t.N 0 s
      ∧ (maxScoreRep t b k xs).2.children = t.children
      ∧ (maxScoreRep t b k xs).2.exploration_weight = t.exploration_weight := by
  induction xs with
  | nil => exact fun t b k s => ⟨rfl, rfl, rfl, rfl⟩
  | cons x xs ih =>
    intro t b k s
    simp only [maxScoreRep]
    have h2 := scoreRep_frame t x s
    by_cases h : k < (scoreRep t x).1
    · rw [if_pos h]
      have h1 := ih (scoreRep t x).2 x (scoreRep t x).1 s
      exact ⟨h1.1.trans h2.1, h1.2.1.trans h2.2.1, h1.2.2.1.trans h2.2.2.1,
        h1.2.2.2.trans h2.2.2.2⟩
    · rw [if_neg h]
      have h1 := ih (scoreRep t x).2 b k s
      exact ⟨h1.1.trans h2.1, h1.2.1.trans h2.2.1, h1.2.2.1.trans h2.2.2.1,
        h1.2.2.2.trans h2.2.2.2⟩

/-- C9: `choose` is observationally a pure query.  At the representation
level, its `defaultdict` reads may insert zero-valued entries, but the
reward map, the visit-count map (read with default 0) and the
expanded-children map are unchanged as functions, for every engine state
and argument. -/
theorem chooseRep_frame (nd : Node σ) (t : MCTSRep σ) (node s : σ) :
    lookupD (chooseRep nd t node).2.Q 0 s = lookupD t.Q 0 s
    ∧ lookupD (chooseRep nd t node).2.N 0 s = lookupD t.N 0 s
    ∧ (chooseRep nd t node).2.children = t.children
    ∧ (chooseRep nd t node).2.exploration_weight = t.exploration_weight := by
  cases hb : nd.is_terminal node with
  | true => simp only [chooseRep, hb]; exact ⟨rfl, rfl, rfl, rfl⟩
  | false =>
    simp only [chooseRep, hb, Bool.false_eq_true, if_false]
    cases hc : alookup t.children node with
    | none => simp [hc]
    | some kids =>
      cases kids with
      | nil => simp [hc]
      | cons c cs =>
        simp only [hc]
        have h1 := maxScoreRep_frame cs (scoreRep t c).2 c (scoreRep t c).1 s
        have h2 := scoreRep_frame t c s
        exact ⟨h1.1.trans h2.1, h1.2.1.trans h2.2.1, h1.2.2.1.trans h2.2.2.1,
          h1.2.2.2.trans h2.2.2.2⟩

end MCTSRep

namespace MCTS

variable {σ : Type} [DecidableEq σ]

omit [DecidableEq σ] in
theorem simulateFuel_run (nd : Node σ) (k : ℕ) :
    ∀ (fuel : ℕ) (leaf : σ) (inv : Bool), k < fuel →
      (∀ j, j < k → nd.is_terminal (iterChild nd j leaf) = false) →
      nd.is_terminal (iterChild nd k leaf) = true →
      simulateFuel nd fuel leaf inv =
        some (if (if k % 2 = 0 then inv else !inv) = true
              then 1 - nd.reward (iterChild nd k leaf)
              else nd.reward (iterChild nd k leaf)) := by
  induction k with
  | zero =>
    intro fuel leaf inv hf hrun ht
    cases fuel with
    | zero => omega
    | succ f =>
      rw [iterChild] at ht
      rw [simulateFuel, ht]
      simp [iterChild]
  | succ k ih =>
    intro fuel leaf inv hf hrun ht
    cases fuel with
    | zero => omega
    | succ f =>
      have h0 : nd.is_terminal leaf = false := by
        have h1 := hrun 0 (Nat.succ_pos k)
        rwa [iterChild] at h1
      rw [simulateFuel, h0]
      simp only [Bool.false_eq_true, if_false]
      have hrec := ih f (nd.find_random_child leaf) (!inv) (by omega)
        (fun j hj => by
          have h2 := hrun (j + 1) (by omega)
          rwa [iterChild] at h2)
        (by rwa [iterChild] at ht)
      rw [hrec]
      have hit : iterChild nd k (nd.find_random_child leaf) = iterChild nd (k + 1) leaf := by
        rw [iterChild]
      rw [hit]
      by_cases hk : k % 2 = 0
      · have hk2 : ¬ (k + 1) % 2 = 0 := by omega
        rw [if_pos hk, if_neg hk2]
      · have hk2 : (k + 1) % 2 = 0 := by omega
        rw [if_neg hk, if_pos hk2, Bool.not_not]

omit [DecidableEq σ] in
/-- C5: when the random playout from a leaf reaches its first terminal
state after exactly `k` random steps, `simulate` returns the terminal
reward complemented exactly when `k` is even (including `k = 0`, a leaf
that is itself terminal), because the perspective flag starts inverted
and flips once per random step. -/
theorem simulate_parity (nd : Node σ) (fuel k : ℕ) (leaf : σ)
    (hf : k < fuel)
    (hrun : ∀ j, j < k → nd.is_terminal (iterChild nd j leaf) = false)
    (ht : nd.is_terminal (iterChild nd k leaf) = true) :
    simulate nd fuel leaf =
      some (if k % 2 = 0 then 1 - nd.reward (iterChild nd k leaf)
            else nd.reward (iterChild nd k leaf)) := by
  rw [simulate, simulateFuel_run nd k fuel leaf true hf hrun ht]
  by_cases hk : k % 2 = 0
  · rw [if_pos hk, if_pos hk]
    rfl
  · rw [if_neg hk, if_neg hk]
    rfl

end MCTS

/-- Witness for C5 on the chain game: the playout from state 0 reaches
the terminal state 2 after exactly 2 random steps, so the returned value
is the complemented terminal reward. -/
theorem simulate_parity_witness :
    2 < 3
    ∧ (∀ j, j < 2 → gChain.is_terminal (MCTS.iterChild gChain j 0) = false)
    ∧ gChain.is_terminal (MCTS.iterChild gChain 2 0) = true
    ∧ MCTS.simulate gChain 3 0 = some (1 - gChain.reward (MCTS.iterChild gChain 2 0)) := by
  have hrun : ∀ j, j < 2 → gChain.is_terminal (MCTS.iterChild gChain j 0) = false := by
    intro j hj
    interval_cases j
    · rfl
    · rfl
  have h := MCTS.simulate_parity gChain 3 2 0 (by omega) hrun rfl
  refine ⟨by omega, hrun, rfl, ?_⟩
  rw [h]
  norm_num

namespace MCTS

variable {σ : Type} [DecidableEq σ]

theorem selectFuel_head (m : MathOps) (fuel : ℕ) (t : MCTS σ) (node : σ) (p : List σ)
    (h : selectFuel m fuel t node = some p) : ∃ q, p = node :: q := by
  cases fuel with
  | zero => rw [selectFuel] at h; cases h
  | succ f =>
    rw [selectFuel] at h
    cases h1 : alookup t.children node with
    | none =>
      simp only [h1] at h
      exact ⟨[], (Option.some.inj h).symm⟩
    | some kids =>
      cases kids with
      | nil =>
        simp only [h1] at h
        exact ⟨[], (Option.some.inj h).symm⟩
      | cons c cs =>
        simp only [h1] at h
        cases h2 : unexplored t (c :: cs) with
        | cons u us =>
          simp only [h2] at h
          exact ⟨[u], (Option.some.inj h).symm⟩
        | nil =>
          simp only [h2] at h
          cases h3 : uct_select m t node with
          | none => simp only [h3] at h; cases h
          | some next =>
            simp only [h3] at h
            obtain ⟨p2, hp2, hp3⟩ := Option.map_eq_some'.mp h
            exact ⟨p2, hp3.symm⟩

theorem selectFuel_mono (m : MathOps) (fuel : ℕ) :
    ∀ (t : MCTS σ) (node : σ) (p : List σ),
      selectFuel m fuel t node = some p → selectFuel m (fuel + 1) t node = some p := by
  induction fuel with
  | zero => intro t node p h; rw [selectFuel] at h; cases h
  | succ f ih =>
    intro t node p h
    rw [selectFuel] at h
    rw [selectFuel]
    cases h1 : alookup t.children node with
    | none =>
      simp only [h1] at h ⊢
      exact h
    | some kids =>
      cases kids with
      | nil =>
        simp only [h1] at h ⊢
        exact h
      | cons c cs =>
        simp only [h1] at h ⊢
        cases h2 : unexplored t (c :: cs) with
        | cons u us =>
          simp only [h2] at h ⊢
          exact h
        | nil =>
          simp only [h2] at h ⊢
          cases h3 : uct_select m t node with
          | none => simp only [h3] at h; cases h
          | some next =>
            simp only [h3] at h ⊢
            obtain ⟨p2, hp2, hp3⟩ := Option.map_eq_some'.mp h
            rw [ih t next p2 hp2]
            simp [hp3]

theorem selectFuel_mono_le (m : MathOps) {f f2 : ℕ} (hle : f ≤ f2) :
    ∀ (t : MCTS σ) (node : σ) (p : List σ),
      selectFuel m f t node = some p → selectFuel m f2 t node = some p := by
  induction hle with
  | refl => exact fun t node p h => h
  | step h2 ih =>
    intro t node p h
    exact selectFuel_mono m _ t node p (ih t node p h)

theorem selectFuel_suffix (m : MathOps) (fuel : ℕ) :
    ∀ (t : MCTS σ) (node y : σ) (xs ys : List σ),
      selectFuel m fuel t node = some (xs ++ y :: ys) → xs ≠ [] →
      (ys = [] ∧ alookup t.children y = none)
      ∨ ∃ f2, f2 ≤ fuel ∧ selectFuel m f2 t y = some (y :: ys) := by
  induction fuel with
  | zero => intro t node y xs ys h hxs; rw [selectFuel] at h; cases h
  | succ f ih =>
    intro t node y xs ys h hxs
    rw [selectFuel] at h
    cases h1 : alookup t.children node with
    | none =>
      simp only [h1] at h
      have h2 := Option.some.inj h
      exfalso
      have hlen := congrArg List.length h2
      rw [List.length_singleton, List.length_append, List.length_cons] at hlen
      have hpos : 0 < xs.length := List.length_pos.mpr hxs
      omega
    | some kids =>
      cases kids with
      | nil =>
        simp only [h1] at h
        have h2 := Option.some.inj h
        exfalso
        have hlen := congrArg List.length h2
        rw [List.length_singleton, List.length_append, List.length_cons] at hlen
        have hpos : 0 < xs.length := List.length_pos.mpr hxs
        omega
      | cons c cs =>
        simp only [h1] at h
        cases h2 : unexplored t (c :: cs) with
        | cons u us =>
          simp only [h2] at h
          have h3 := Option.some.inj h
          cases xs with
          | nil => exact absurd rfl hxs
          | cons a xs2 =>
            rw [List.cons_append] at h3
            injection h3 with ha hrest
            cases xs2 with
            | nil =>
              rw [List.nil_append] at hrest
              injection hrest with hu hys
              refine Or.inl ⟨hys.symm, ?_⟩
              have hmem : u ∈ unexplored t (c :: cs) := by
                rw [h2]
                exact List.mem_cons_self _ _
              rw [unexplored] at hmem
              have h4 := (List.mem_filter.mp hmem).2
              rw [hu] at h4
              exact Option.isNone_iff_eq_none.mp h4
            | cons b xs3 =>
              rw [List.cons_append] at hrest
              injection hrest with hb hrest2
              exact absurd hrest2.symm (by simp)
        | nil =>
          simp only [h2] at h
          cases h3 : uct_select m t node with
          | none => simp only [h3] at h; cases h
          | some next =>
            simp only [h3] at h
            obtain ⟨p2, hp2, hp3⟩ := Option.map_eq_some'.mp h
            cases xs with
            | nil => exact absurd rfl hxs
            | cons a xs2 =>
              rw [List.cons_append] at hp3
              injection hp3 with ha hrest
              cases xs2 with
              | nil =>
                rw [List.nil_append] at hrest
                obtain ⟨q, hq⟩ := selectFuel_head m f t next p2 hp2
                have hny : next = y := by
                  have h5 := hq.symm.trans hrest
                  injection h5
                rw [hrest] at hp2
                rw [hny] at hp2
                exact Or.inr ⟨f, Nat.le_succ f, hp2⟩
              | cons b xs3 =>
                rw [hrest] at hp2
                rcases ih t next y (b :: xs3) ys hp2 (List.cons_ne_nil b xs3) with
                  hl | ⟨f2, hf2, hs⟩
                · exact Or.inl hl
                · exact Or.inr ⟨f2, Nat.le_succ_of_le hf2, hs⟩

theorem selectFuel_count_root (m : MathOps) (fuel : ℕ) (t : MCTS σ) (root : σ) (p : List σ)
    (h : selectFuel m fuel t root = some p) : p.count root = 1 := by
  obtain ⟨q, hq⟩ := selectFuel_head m fuel t root p h
  subst hq
  rw [List.count_cons_self]
  suffices hq2 : root ∉ q by
    rw [List.count_eq_zero.mpr hq2]
  intro hmem
  obtain ⟨q1, q2, hq3⟩ := List.append_of_mem hmem
  subst hq3
  rcases selectFuel_suffix m fuel t root root (root :: q1) q2 (by simpa using h)
    (List.cons_ne_nil _ _) with ⟨hys, hnone⟩ | ⟨f2, hf2, hsel⟩
  · subst hys
    cases fuel with
    | zero => rw [selectFuel] at h; cases h
    | succ f =>
      rw [selectFuel] at h
      simp only [hnone] at h
      have h3 := Option.some.inj h
      injection h3 with h4 h5
      exact absurd h5.symm (by simp)
  · have h4 := selectFuel_mono_le m hf2 t root _ hsel
    rw [h] at h4
    have h5 := Option.some.inj h4
    have hlen := congrArg List.length h5
    simp [List.length_append] at hlen
    omega

theorem rollout_N_root (m : MathOps) (nd : Node σ) (fuel : ℕ) (t t2 : MCTS σ) (root : σ)
    (h : rollout m nd fuel t root = some t2) : t2.N root = t.N root + 1 := by
  obtain ⟨path, leaf, reward, hsel, hlast, hsim, ht2⟩ := rollout_eq m nd fuel t t2 root h
  rw [ht2, backpropagate, backpropGo_N, List.count_reverse, expand_N,
    selectFuel_count_root m fuel t root path hsel]

theorem rolloutN_N_root (m : MathOps) (nd : Node σ) (fuel k : ℕ) :
    ∀ (t t2 : MCTS σ) (root : σ), rolloutN m nd fuel k t root = some t2 →
      t2.N root = t.N root + k := by
  induction k with
  | zero =>
    intro t t2 root h
    rw [rolloutN] at h
    obtain rfl : t = t2 := Option.some.inj h
    simp
  | succ j ih =>
    intro t t2 root h
    rw [rolloutN] at h
    cases h1 : rollout m nd fuel t root with
    | none => rw [h1] at h; cases h
    | some t1 =>
      simp only [h1] at h
      have h2 := ih t1 t2 root h
      rw [h2, rollout_N_root m nd fuel t t1 root h1]
      omega

/-- C2: every path returned by the select phase contains the root
exactly once, and consequently, after `k` successful rollouts from a
fixed root on a freshly constructed engine, the recorded visit count of
the root is exactly `k`. -/
theorem rollout_root_visits (m : MathOps) (nd : Node σ) (fuel k : ℕ) (w : ℚ) (root : σ) :
    (∀ (t : MCTS σ) (p : List σ), selectFuel m fuel t root = some p → p.count root = 1)
    ∧ ∀ t2 : MCTS σ, rolloutN m nd fuel k (MCTS.init σ w) root = some t2 →
        t2.N root = k := by
  refine ⟨fun t p h => selectFuel_count_root m fuel t root p h, fun t2 h => ?_⟩
  have h2 := rolloutN_N_root m nd fuel k (MCTS.init σ w) t2 root h
  rw [h2]
  simp [MCTS.init]

theorem rollout_preserves_inv (m : MathOps) (nd : Node σ) (fuel : ℕ)
    (t t2 : MCTS σ) (root : σ)
    (hinv : ExpandedVisited t) (h : rollout m nd fuel t root = some t2) :
    ExpandedVisited t2 := by
  obtain ⟨path, leaf, reward, hsel, hlast, hsim, ht2⟩ := rollout_eq m nd fuel t t2 root h
  intro s hs
  rw [ht2, backpropagate_children] at hs
  rw [ht2, backpropagate, backpropGo_N, List.count_reverse, expand_N]
  by_cases hsl : s = leaf
  · subst hsl
    have hmem : s ∈ path := by
      obtain ⟨ys, hys⟩ := List.getLast?_eq_some_iff.mp hlast
      rw [hys]
      exact List.mem_append.mpr (Or.inr (List.mem_cons_self _ _))
    have hpos : 0 < path.count s := List.count_pos_iff.mpr hmem
    omega
  · have hs2 : (alookup t.children s).isSome = true := by
      cases h2 : alookup t.children leaf with
      | some l2 =>
        rw [expand_noop nd t leaf l2 h2] at hs
        exact hs
      | none =>
        rw [show (expand nd t leaf).children = aset t.children leaf (nd.find_children leaf)
          from by simp [expand, h2]] at hs
        rw [alookup_aset_ne _ _ _ _ hsl] at hs
        exact hs
    have h3 := hinv s hs2
    omega

/-- C4: on a fresh engine the invariant "every expanded state has visit
count at least 1" holds, every successful rollout preserves it, and at
any point where the select loop would invoke `uct_select` (a recorded
nonempty children set with no unexplored member), every recorded child
is itself a key of the expanded-children map (the assertion of
`uct_select`), the visit count of the state is at least 1 (so the
logarithm argument is positive), and every child has nonzero visit
count (so no division by zero occurs). -/
theorem uct_select_safe (m : MathOps) (nd : Node σ) (fuel : ℕ) (w : ℚ) :
    ExpandedVisited (MCTS.init σ w)
    ∧ (∀ (t t2 : MCTS σ) (root : σ), ExpandedVisited t →
        rollout m nd fuel t root = some t2 → ExpandedVisited t2)
    ∧ ∀ (t : MCTS σ) (x c : σ) (cs : List σ), ExpandedVisited t →
        alookup t.children x = some (c :: cs) →
        unexplored t (c :: cs) = [] →
        (∀ y ∈ c :: cs, (alookup t.children y).isSome = true)
        ∧ 1 ≤ t.N x ∧ (0 : ℚ) < (t.N x : ℚ)
        ∧ ∀ y ∈ c :: cs, 1 ≤ t.N y ∧ ((t.N y : ℚ) ≠ 0) := by
  refine ⟨?_, fun t t2 root => rollout_preserves_inv m nd fuel t t2 root, ?_⟩
  · intro s hs
    simp [MCTS.init, alookup] at hs
  · intro t x c cs hinv hx hune
    rw [unexplored] at hune
    have hall : ∀ y ∈ c :: cs, (alookup t.children y).isSome = true := by
      intro y hy
      have h2 := List.filter_eq_nil_iff.mp hune y hy
      cases h3 : alookup t.children y with
      | none => rw [h3] at h2; exact absurd rfl h2
      | some l => rfl
    have hNx : 1 ≤ t.N x := hinv x (by rw [hx]; rfl)
    refine ⟨hall, hNx, Nat.cast_pos.mpr (by omega), ?_⟩
    intro y hy
    have hNy : 1 ≤ t.N y := hinv y (hall y hy)
    exact ⟨hNy, Nat.cast_ne_zero.mpr (by omega)⟩

end MCTS

/-- Witness for C2: two concrete rollouts of `gFin` from state 0 on a
fresh engine yield visit count 2 at the root. -/
theorem rollout_root_visits_witness :
    MCTS.rolloutN mOps gFin 5 2 (MCTS.init (Fin 3) 1) 0 = some tRoll2
    ∧ tRoll2.N 0 = 2 :=
  ⟨rfl, (MCTS.rollout_root_visits mOps gFin 5 2 1 0).2 tRoll2 rfl⟩

/-- Witness for C4 at the concrete engine state `tUct`, where the select
loop would invoke `uct_select` at state 0: the invariant holds, all
recorded children of 0 are expanded with nonzero visit counts, and the
visit count of 0 is positive. -/
theorem uct_select_safe_witness :
    MCTS.ExpandedVisited tUct
    ∧ alookup tUct.children 0 = some [1, 2]
    ∧ MCTS.unexplored tUct [1, 2] = []
    ∧ (∀ y ∈ [(1 : Fin 3), 2], (alookup tUct.children y).isSome = true)
    ∧ (0 : ℚ) < (tUct.N 0 : ℚ)
    ∧ ∀ y ∈ [(1 : Fin 3), 2], 1 ≤ tUct.N y ∧ ((tUct.N y : ℚ) ≠ 0) := by
  have hinv : MCTS.ExpandedVisited tUct := by
    unfold MCTS.ExpandedVisited
    decide
  have h := (MCTS.uct_select_safe mOps gFin 5 1).2.2 tUct 0 1 [2] hinv rfl rfl
  exact ⟨hinv, rfl, rfl, h.1, h.2.2.1, h.2.2.2⟩
